import Mathlib

/-!
Verification of the netsed core (netsed.c) against its specification.

The development shallowly embeds the rule engine (sed_the_buffer), the rule
parser (the rule-splitting loop of main and shrink_to_binary), and the pure
parts of the connection tracker (the sweep of dead entries and the udp
lookup-or-insert step).  Buffers are functions from byte index to byte value,
machine ints are Lean Int, and the unbounded while loop of the engine is
modelled with explicit fuel: a result of none means the loop has not
terminated within the given fuel.
-/

namespace Netsed

/-- MAX_BUF from netsed.c: max size for the global buffers buf and b2. -/
def MAX_BUF : Nat := 100000

/-- Rule item, struct rule_s of netsed.c.  The C struct stores binary
buffers from and to together with their lengths fs and ts; here the lists
carry their lengths.  The fields from and to are renamed frm and toB because from and to are Lean
keywords. -/
structure Rule where
  frm : List Nat
  toB : List Nat
deriving DecidableEq, Repr

deriving instance DecidableEq for Except

/-- Result of one sed_the_buffer call: the bytes written to the global
buffer b2, the final per-connection live array, and the number of
replacements performed (the local variable changes). -/
structure SedResult where
  out : List Nat
  live : List Int
  changes : Nat
deriving DecidableEq, Repr

/-- memcmp(&buf[i], p, p.length) == 0 in the C source: the bytes of buf
starting at index i equal the list p.  Note that this reads bytes of buf
beyond any logical payload size, exactly as the C memcmp does. -/
def memcmpEq (buf : Nat → Nat) : Nat → List Nat → Bool
  | _, [] => true
  | i, b :: rest => (buf i == b) && memcmpEq buf (i+1) rest

/-- Inner for loop of sed_the_buffer over j: find the first rule j with
memcmp(&buf[i], rule[j].from, rule[j].fs) == 0 and live[j] != 0, returning
the rule, its live counter value, and its index j. -/
def findRule (buf : Nat → Nat) (i : Nat) :
    List Rule → List Int → Option (Rule × Int × Nat)
  | r :: rs, l :: ls =>
      if memcmpEq buf i r.frm && (l != 0) then some (r, l, 0)
      else (findRule buf i rs ls).map (fun t => (t.1, t.2.1, t.2.2 + 1))
  | _, _ => none

/-- Outer for loop of sed_the_buffer, with explicit fuel.  Each iteration
either applies the first live matching rule (appending rule.toB, advancing i
by the length of rule.frm, and decrementing live[j] by one, exactly as the
C code does with live[j]--) or copies the single byte buf[i].  none means
the loop did not reach i >= siz within the given fuel. -/
def sedRun (buf : Nat → Nat) (siz : Nat) (rules : List Rule) :
    Nat → Nat → List Int → Option SedResult
  | 0, i, live => if i < siz then none else some ⟨[], live, 0⟩
  | fuel+1, i, live =>
    if i < siz then
      match findRule buf i rules live with
      | some (r, l, j) =>
          (sedRun buf siz rules fuel (i + r.frm.length) (live.set j (l - 1))).map
            (fun res => ⟨r.toB ++ res.out, res.live, res.changes + 1⟩)
      | none =>
          (sedRun buf siz rules fuel (i + 1) live).map
            (fun res => ⟨buf i :: res.out, res.live, res.changes⟩)
    else some ⟨[], live, 0⟩

/-- sed_the_buffer of netsed.c.  When every rule has a non-empty source
pattern the loop advances at each iteration, so fuel siz is exactly enough
for the C loop to finish; a none result corresponds to a non-terminating C
loop. -/
def sed_the_buffer (buf : Nat → Nat) (siz : Nat) (rules : List Rule)
    (live : List Int) : Option SedResult :=
  sedRun buf siz rules siz 0 live

/-- View a byte list as a buffer, with 0 beyond the end. -/
def bufOf (l : List Nat) : Nat → Nat := fun n => l.getD n 0

/-- Bytes buf[i], buf[i+1], ..., buf[i+n-1]: the segment the copy branch of
sed_the_buffer emits when no rule ever matches. -/
def copySeg (buf : Nat → Nat) : Nat → Nat → List Nat
  | _, 0 => []
  | i, n+1 => buf i :: copySeg buf (i+1) n

/-- Decidable check that no rule source pattern matches at any position
below n of the buffer. -/
def noMatch (buf : Nat → Nat) (n : Nat) (rules : List Rule) : Bool :=
  (List.range n).all (fun i => rules.all (fun r => !(memcmpEq buf i r.frm)))

/-! ### Rule parser -/

/-- Error kinds of shrink_to_binary: the unexpected end and non-hex
sequence fatal errors. -/
inductive ShrinkErr where
  | unexpectedEnd : ShrinkErr
  | nonHex : ShrinkErr
deriving DecidableEq, Repr

/-- Hex digit table of netsed.c: the string 0123456789ABCDEF as bytes. -/
def hexTable : List Nat := [48,49,50,51,52,53,54,55,56,57,65,66,67,68,69,70]

/-- toupper for the default C locale: lowercase ascii letters are mapped to
uppercase, everything else is unchanged. -/
def toupperB (c : Nat) : Nat := if 97 ≤ c ∧ c ≤ 122 then c - 32 else c

/-- strchr over a byte list: index of the first occurrence of c. -/
def strchrIdx : List Nat → Nat → Option Nat
  | [], _ => none
  | x :: rest, c => if x = c then some 0 else (strchrIdx rest c).map (· + 1)

/-- Value of a hex digit as computed by shrink_to_binary:
strchr(hex, toupper(c)) - hex. -/
def hexVal (c : Nat) : Option Nat := strchrIdx hexTable (toupperB c)

/-- Decode loop of shrink_to_binary, run by the C function once on forig
and once (with identical code, up to the src/dst wording of the error
message) on torig.  A literal % followed by % emits %, a % followed by two
further characters requires them to be hex digits, and a % followed by
fewer than two characters (the string terminator is reached) is an
unexpected end. -/
def shrink_to_binary : List Nat → Except ShrinkErr (List Nat)
  | [] => .ok []
  | c :: rest =>
    if c = 37 then
      match rest with
      | [] => .error .unexpectedEnd
      | d :: rest2 =>
        if d = 37 then (shrink_to_binary rest2).map (fun l => 37 :: l)
        else
          match rest2 with
          | [] => .error .unexpectedEnd
          | y :: rest3 =>
            match hexVal d with
            | none => .error .nonHex
            | some hx =>
              match hexVal y with
              | none => .error .nonHex
              | some hy => (shrink_to_binary rest3).map (fun l => (hx * 16 + hy) :: l)
    else (shrink_to_binary rest).map (fun l => c :: l)

/-- Modelled from the claim wording, for comparison with shrink_to_binary:
a hex digit of either case. -/
def isHexDigit (c : Nat) : Bool :=
  (48 ≤ c ∧ c ≤ 57) ∨ (65 ≤ c ∧ c ≤ 70) ∨ (97 ≤ c ∧ c ≤ 102)

/-- Modelled from the claim wording: the numeric value of a hex digit of
either case. -/
def hexDigitVal (c : Nat) : Nat :=
  if c ≤ 57 then c - 48 else if c ≤ 70 then c - 55 else c - 87

/-- Decoder written from the specification text of the escape syntax:
%XY with X and Y hex digits of either case emits the byte 16X+Y, %% emits
a literal %, any other byte is copied verbatim, a % followed by fewer than
two remaining characters fails with unexpected end, and a % followed by a
pair that is not two hex digits fails with non-hex sequence. -/
def specDecode : List Nat → Except ShrinkErr (List Nat)
  | [] => .ok []
  | c :: rest =>
    if c = 37 then
      match rest with
      | [] => .error .unexpectedEnd
      | d :: rest2 =>
        if d = 37 then (specDecode rest2).map (fun l => 37 :: l)
        else
          match rest2 with
          | [] => .error .unexpectedEnd
          | y :: rest3 =>
            if isHexDigit d && isHexDigit y then
              (specDecode rest3).map (fun l => (hexDigitVal d * 16 + hexDigitVal y) :: l)
            else .error .nonHex
    else (specDecode rest).map (fun l => c :: l)

/-- isspace of the default C locale. -/
def isSpaceB (c : Nat) : Bool := c == 32 || (9 ≤ c ∧ c ≤ 13)

/-- Leading whitespace removal performed by atoi. -/
def dropSpaces : List Nat → List Nat
  | [] => []
  | c :: rest => if isSpaceB c then dropSpaces rest else c :: rest

/-- Digit-accumulation loop of atoi. -/
def atoiDigits : List Nat → Int → Int
  | [], acc => acc
  | c :: rest, acc =>
      if 48 ≤ c ∧ c ≤ 57 then atoiDigits rest (acc * 10 + ((c : Int) - 48))
      else acc

/-- atoi from the C library as used on the count field of a rule: skip
whitespace, read an optional sign, then decimal digits. -/
def atoi (s : List Nat) : Int :=
  match dropSpaces s with
  | 45 :: rest => - atoiDigits rest 0
  | 43 :: rest => atoiDigits rest 0
  | rest => atoiDigits rest 0

/-- strchr based split of the rule-parsing loop in main: bytes before the
first slash and bytes after it, or none when there is no slash. -/
def splitAtSlash : List Nat → Option (List Nat × List Nat)
  | [] => none
  | c :: rest =>
      if c = 47 then some ([], rest)
      else (splitAtSlash rest).map (fun p => (c :: p.1, p.2))

/-- rule_live computation of main: a present, non-empty count field is
passed to atoi, otherwise the count is -1. -/
def rule_live_of : Option (List Nat) → Int
  | some c => if c ≠ [] then atoi c else -1
  | none => -1

/-- Parse errors of the per-rule loop in main. -/
inductive ParseErr where
  | missingFirstSlash : ParseErr
  | missingSecondSlash : ParseErr
  | srcErr : ShrinkErr → ParseErr
  | dstErr : ShrinkErr → ParseErr
deriving DecidableEq, Repr

/-- Body of the rule-parsing loop of main for one rule argument: everything
before the first slash is skipped (the C code only searches for the first
slash), the source pattern runs to the second slash, the destination
pattern to the optional third slash, the remainder is the count field; both
patterns are decoded by shrink_to_binary and the count by rule_live_of. -/
def parse_one_rule (s : List Nat) : Except ParseErr (Rule × Int) :=
  match splitAtSlash s with
  | none => .error .missingFirstSlash
  | some (_, s1) =>
    match splitAtSlash s1 with
    | none => .error .missingSecondSlash
    | some (forig, s2) =>
      let tc : List Nat × Option (List Nat) :=
        match splitAtSlash s2 with
        | none => (s2, none)
        | some (t, c) => (t, some c)
      match shrink_to_binary forig with
      | .error e => .error (.srcErr e)
      | .ok frm =>
        match shrink_to_binary tc.1 with
        | .error e => .error (.dstErr e)
        | .ok toB => .ok (⟨frm, toB⟩, rule_live_of tc.2)

/-! ### Connection tracker -/

/-- Connection state, enum state_e: values 0 to 3, every state at or past
DISCONNECTED marks the connection for removal. -/
inductive state_e where
  | UNREPLIED : state_e
  | ESTABLISHED : state_e
  | DISCONNECTED : state_e
  | TIMEOUT : state_e
deriving DecidableEq, Repr

/-- Numeric value of the C enum, used for the state >= DISCONNECTED test. -/
def state_e.toNat : state_e → Nat
  | .UNREPLIED => 0
  | .ESTABLISHED => 1
  | .DISCONNECTED => 2
  | .TIMEOUT => 3

/-- Connection tracker entry, struct tracker_s.  csa is the byte image of
the recvfrom sockaddr (none for tcp, as in the C code where csa is NULL),
csock and fsock are file descriptors, live is the per-connection TTL array
and time the last event time. -/
structure tracker_s where
  csa : Option (List Nat)
  csock : Nat
  fsock : Nat
  time : Int
  state : state_e
  live : List Int
deriving DecidableEq, Repr

/-- Resource releases performed while destroying a tracker entry. -/
inductive Action where
  | closeFd : Nat → Action
  | freeAddr : List Nat → Action
deriving DecidableEq, Repr

/-- freetracker of netsed.c: for udp (csa non NULL) the sockaddr copy is
freed, for tcp the client socket is closed; the forward socket is closed in
both cases. -/
def freetracker (c : tracker_s) : List Action :=
  (match c.csa with
   | some a => [Action.freeAddr a]
   | none => [Action.closeFd c.csock]) ++ [Action.closeFd c.fsock]

/-- The state >= DISCONNECTED removal test of the dispatcher loop. -/
def removable (c : tracker_s) : Bool := decide (2 ≤ c.state.toNat)

/-- Removal pass of the dispatcher walk (end of each iteration): every
entry whose state is at or past DISCONNECTED is unlinked and freed, the
others are kept in order.  Returns the remaining list together with the
release actions in traversal order. -/
def sweep : List tracker_s → List tracker_s × List Action
  | [] => ([], [])
  | c :: rest =>
      let p := sweep rest
      if removable c then (p.1, freetracker c ++ p.2) else (c :: p.1, p.2)

/-- Linear scan of the udp dispatcher for an existing connection with the
same recvfrom address: (conn->csl == l) && (memcmp(&s, conn->csa, l) == 0),
which on the byte images is equality of the stored address with the
incoming one. -/
def findUdp : List tracker_s → List Nat → Option tracker_s
  | [], _ => none
  | c :: rest, addr => if c.csa = some addr then some c else findUdp rest addr

/-- Tracker entry built for a previously unseen udp source address:
csa is a copy of the recvfrom address, csock is the shared listening
socket, state starts UNREPLIED and the live array is a copy of rule_live
(lines 766 to 786 of netsed.c). -/
def mkUdpConn (addr : List Nat) (lsockFd fsockFd : Nat) (tnow : Int)
    (rule_live : List Int) : tracker_s :=
  ⟨some addr, lsockFd, fsockFd, tnow, state_e.UNREPLIED, rule_live⟩

/-- Datagram dispatch step of the udp listener: look the source address up
in the tracker; on a hit the datagram is delivered to the found entry and
the list is unchanged; on a miss a new entry is created and prepended when
the connect to the remote succeeds (connectOk), or dropped when it fails.
Returns the new list and the entry the datagram is delivered to. -/
def udpStep (conns : List tracker_s) (addr : List Nat)
    (lsockFd fsockFd : Nat) (tnow : Int) (rule_live : List Int)
    (connectOk : Bool) : List tracker_s × Option tracker_s :=
  match findUdp conns addr with
  | some c => (conns, some c)
  | none =>
      if connectOk then
        let c := mkUdpConn addr lsockFd fsockFd tnow rule_live
        (c :: conns, some c)
      else (conns, none)

/-- No two tracker entries carry the same client address field. -/
abbrev noDupAddr (l : List tracker_s) : Prop :=
  l.Pairwise (fun a b => a.csa ≠ b.csa ∨ a.csa = none)

/-- Output of the engine on a buffer of n letters a under the rule s/a/bb:
n copies of the two-byte replacement. -/
def dup : Nat → List Nat
  | 0 => []
  | n+1 => 98 :: 98 :: dup n

/-! ### Basic lemmas about the engine -/

theorem sedRun_ge {buf : Nat → Nat} {siz : Nat} {rules : List Rule}
    {fuel i : Nat} {live : List Int} (h : siz ≤ i) :
    sedRun buf siz rules fuel i live = some ⟨[], live, 0⟩ := by
  cases fuel <;> simp [sedRun, Nat.not_lt.mpr h]

theorem sedRun_succ_match {buf : Nat → Nat} {siz : Nat} {rules : List Rule}
    {fuel i : Nat} {live : List Int} {r : Rule} {l : Int} {j : Nat}
    (h : i < siz) (hfind : findRule buf i rules live = some (r, l, j)) :
    sedRun buf siz rules (fuel+1) i live =
      (sedRun buf siz rules fuel (i + r.frm.length) (live.set j (l - 1))).map
        (fun res => ⟨r.toB ++ res.out, res.live, res.changes + 1⟩) := by
  simp [sedRun, h, hfind]

theorem sedRun_succ_copy {buf : Nat → Nat} {siz : Nat} {rules : List Rule}
    {fuel i : Nat} {live : List Int}
    (h : i < siz) (hfind : findRule buf i rules live = none) :
    sedRun buf siz rules (fuel+1) i live =
      (sedRun buf siz rules fuel (i + 1) live).map
        (fun res => ⟨buf i :: res.out, res.live, res.changes⟩) := by
  simp [sedRun, h, hfind]

theorem findRule_none_nomatch {buf : Nat → Nat} {i : Nat} :
    ∀ {rules : List Rule} {live : List Int},
    (∀ r ∈ rules, memcmpEq buf i r.frm = false) →
    findRule buf i rules live = none := by
  intro rules
  induction rules with
  | nil => intro live _; rfl
  | cons r rs ih =>
      intro live h
      cases live with
      | nil => rfl
      | cons l ls =>
          simp [findRule, h r (List.mem_cons_self r rs),
            ih (fun r2 hr2 => h r2 (List.mem_cons_of_mem r hr2))]

theorem findRule_none_zero {buf : Nat → Nat} {i : Nat} :
    ∀ {rules : List Rule} {live : List Int},
    (∀ l ∈ live, l = 0) →
    findRule buf i rules live = none := by
  intro rules
  induction rules with
  | nil => intro live _; rfl
  | cons r rs ih =>
      intro live h
      cases live with
      | nil => rfl
      | cons l ls =>
          have hl : l = 0 := h l (List.mem_cons_self l ls)
          simp [findRule, hl, ih (fun x hx => h x (List.mem_cons_of_mem l hx))]

theorem findRule_some {buf : Nat → Nat} {i : Nat} :
    ∀ {rules : List Rule} {live : List Int} {r : Rule} {l : Int} {j : Nat},
    findRule buf i rules live = some (r, l, j) →
    r ∈ rules ∧ memcmpEq buf i r.frm = true ∧ l ≠ 0 ∧ j < live.length ∧
      live.getD j 0 = l := by
  intro rules
  induction rules with
  | nil => intro live r l j h; simp [findRule] at h
  | cons r0 rs ih =>
      intro live r l j h
      cases live with
      | nil => simp [findRule] at h
      | cons l0 ls =>
          by_cases hc : (memcmpEq buf i r0.frm && (l0 != 0)) = true
          · rw [findRule, if_pos hc] at h
            have hc2 : memcmpEq buf i r0.frm = true ∧ (l0 != 0) = true := by
              simpa using hc
            simp only [Option.some.injEq, Prod.mk.injEq] at h
            obtain ⟨hr, hl, hj⟩ := h
            subst hr; subst hl; subst hj
            exact ⟨List.mem_cons_self _ _, hc2.1, by simpa using hc2.2, by simp, rfl⟩
          · rw [findRule, if_neg hc] at h
            rcases Option.map_eq_some'.mp h with ⟨⟨r1, l1, j1⟩, hfind, heq⟩
            simp only [Option.some.injEq, Prod.mk.injEq] at heq
            obtain ⟨hr, hl, hj⟩ := heq
            subst hr; subst hl; subst hj
            obtain ⟨hmem, hm, hne, hlen, hget⟩ := ih hfind
            exact ⟨List.mem_cons_of_mem _ hmem, hm, hne,
              by simpa using Nat.succ_lt_succ hlen, by simpa using hget⟩

theorem sedRun_copy {buf : Nat → Nat} {siz : Nat} {rules : List Rule}
    {live : List Int} :
    ∀ {fuel i : Nat},
    (∀ i2, i ≤ i2 → i2 < siz → findRule buf i2 rules live = none) →
    siz ≤ i + fuel →
    sedRun buf siz rules fuel i live = some ⟨copySeg buf i (siz - i), live, 0⟩ := by
  intro fuel
  induction fuel with
  | zero =>
      intro i _ hf
      have hge : siz ≤ i := by omega
      have : siz - i = 0 := by omega
      rw [this, sedRun_ge hge]; rfl
  | succ fuel ih =>
      intro i h hf
      by_cases hi : i < siz
      · rw [sedRun_succ_copy hi (h i le_rfl hi),
          ih (fun i2 h2 => h i2 (by omega)) (by omega)]
        have hsz : siz - i = (siz - (i + 1)) + 1 := by omega
        rw [hsz]
        rfl
      · have hge : siz ≤ i := by omega
        have : siz - i = 0 := by omega
        rw [this, sedRun_ge hge]; rfl

theorem copySeg_shift {a : Nat} {l : List Nat} :
    ∀ {n k : Nat}, copySeg (bufOf (a :: l)) (k + 1) n = copySeg (bufOf l) k n := by
  intro n
  induction n with
  | zero => intro k; rfl
  | succ n ih =>
      intro k
      show bufOf (a :: l) (k + 1) :: _ = bufOf l k :: _
      rw [ih]
      rfl

theorem copySeg_bufOf : ∀ (l : List Nat), copySeg (bufOf l) 0 l.length = l := by
  intro l
  induction l with
  | nil => rfl
  | cons a l ih =>
      show bufOf (a :: l) 0 :: copySeg (bufOf (a :: l)) 1 l.length = a :: l
      rw [copySeg_shift, ih]
      rfl

theorem noMatch_findRule {buf : Nat → Nat} {n : Nat} {rules : List Rule}
    (h : noMatch buf n rules = true) :
    ∀ i < n, ∀ live : List Int, findRule buf i rules live = none := by
  intro i hi live
  apply findRule_none_nomatch
  intro r hr
  simp only [noMatch, List.all_eq_true, List.mem_range] at h
  simpa using h i hi r hr

theorem sedRun_zero_changes {buf : Nat → Nat} {siz : Nat} {rules : List Rule} :
    ∀ {fuel i : Nat} {live : List Int} {res : SedResult},
    sedRun buf siz rules fuel i live = some res → res.changes = 0 →
    res = ⟨copySeg buf i (siz - i), live, 0⟩ := by
  intro fuel
  induction fuel with
  | zero =>
      intro i live res h hch
      by_cases hi : i < siz
      · simp [sedRun, hi] at h
      · have hsz : siz - i = 0 := by omega
        rw [sedRun_ge (by omega)] at h
        rw [hsz]
        cases h
        rfl
  | succ fuel ih =>
      intro i live res h hch
      by_cases hi : i < siz
      · rcases hfr : findRule buf i rules live with _ | ⟨r, l, j⟩
        · rw [sedRun_succ_copy hi hfr] at h
          rcases Option.map_eq_some'.mp h with ⟨res2, h2, heq⟩
          have hch2 : res2.changes = 0 := by
            subst heq; simpa using hch
          have := ih h2 hch2
          subst heq
          rw [this]
          have hsz : siz - i = (siz - (i + 1)) + 1 := by omega
          rw [hsz]
          rfl
        · rw [sedRun_succ_match hi hfr] at h
          rcases Option.map_eq_some'.mp h with ⟨res2, _, heq⟩
          subst heq
          simp at hch
      · have hsz : siz - i = 0 := by omega
        rw [sedRun_ge (by omega)] at h
        rw [hsz]
        cases h
        rfl

theorem sedRun_neg_live {buf : Nat → Nat} {siz : Nat} {rules : List Rule} :
    ∀ {fuel i : Nat} {live : List Int} {res : SedResult},
    sedRun buf siz rules fuel i live = some res →
    (∀ x ∈ live, x < 0) → ∀ x ∈ res.live, x < 0 := by
  intro fuel
  induction fuel with
  | zero =>
      intro i live res h hneg
      by_cases hi : i < siz
      · simp [sedRun, hi] at h
      · rw [sedRun_ge (by omega)] at h
        cases h
        exact hneg
  | succ fuel ih =>
      intro i live res h hneg
      by_cases hi : i < siz
      · rcases hfr : findRule buf i rules live with _ | ⟨r, l, j⟩
        · rw [sedRun_succ_copy hi hfr] at h
          rcases Option.map_eq_some'.mp h with ⟨res2, h2, heq⟩
          subst heq
          simpa using ih h2 hneg
        · rw [sedRun_succ_match hi hfr] at h
          rcases Option.map_eq_some'.mp h with ⟨res2, h2, heq⟩
          obtain ⟨-, -, -, hjlen, hget⟩ := findRule_some hfr
          have hl : l < 0 := by
            have hmem : live.getD j 0 ∈ live := by
              rw [List.getD_eq_getElem live 0 hjlen]
              exact List.getElem_mem hjlen
            rw [hget] at hmem
            exact hneg l hmem
          have hneg2 : ∀ x ∈ live.set j (l - 1), x < 0 := by
            intro x hx
            rcases List.mem_or_eq_of_mem_set hx with hx2 | hx2
            · exact hneg x hx2
            · subst hx2; omega
          subst heq
          simpa using ih h2 hneg2
      · rw [sedRun_ge (by omega)] at h
        cases h
        exact hneg

theorem findRule_single {buf : Nat → Nat} {i : Nat} {r : Rule} {x : Int} :
    findRule buf i [r] [x] =
      if memcmpEq buf i r.frm && (x != 0) then some (r, x, 0) else none := by
  by_cases h : (memcmpEq buf i r.frm && (x != 0)) = true
  · rw [findRule, if_pos h, if_pos h]
  · rw [findRule, if_neg h, if_neg h]
    rfl

theorem sedRun_neg_total (buf : Nat → Nat) (siz : Nat) {r : Rule}
    (hfs : 1 ≤ r.frm.length) :
    ∀ (fuel i : Nat) {a : Int}, a < 0 → siz ≤ i + fuel →
    ∃ (out : List Nat) (ch : Nat),
      sedRun buf siz [r] fuel i [a] = some ⟨out, [a - (ch : Int)], ch⟩ := by
  intro fuel
  induction fuel with
  | zero =>
      intro i a _ hf
      exact ⟨[], 0, by rw [sedRun_ge (by omega)]; simp⟩
  | succ fuel ih =>
      intro i a ha hf
      by_cases hi : i < siz
      · by_cases hm : memcmpEq buf i r.frm = true
        · have hane : (a != 0) = true := by
            simp only [bne_iff_ne, ne_eq]
            omega
          have hfr : findRule buf i [r] [a] = some (r, a, 0) := by
            rw [findRule_single, hm, hane]
            simp
          obtain ⟨out, ch, hrun⟩ := ih (i + r.frm.length) (a := a - 1)
            (by omega) (by omega)
          refine ⟨r.toB ++ out, ch + 1, ?_⟩
          rw [sedRun_succ_match hi hfr]
          show (sedRun buf siz [r] fuel (i + r.frm.length) [a - 1]).map _ = _
          rw [hrun]
          simp only [Option.map_some']
          have hcast : a - 1 - (ch : Int) = a - ((ch : Nat) + 1 : Nat) := by
            push_cast
            ring
          rw [hcast]
        · have hmf : memcmpEq buf i r.frm = false := by
            simpa using hm
          have hfr : findRule buf i [r] [a] = none := by
            rw [findRule_single, hmf]
            simp
          obtain ⟨out, ch, hrun⟩ := ih (i + 1) (a := a) ha (by omega)
          refine ⟨buf i :: out, ch, ?_⟩
          rw [sedRun_succ_copy hi hfr, hrun]
          rfl
      · exact ⟨[], 0, by rw [sedRun_ge (by omega)]; simp⟩

theorem sedRun_limit (buf : Nat → Nat) (siz : Nat) {r : Rule}
    (hfs : 1 ≤ r.frm.length) :
    ∀ (fuel i : Nat) (N : Nat) {a : Int}, a < 0 → siz ≤ i + fuel →
    ∃ (outU : List Nat) (chU : Nat) (outN : List Nat),
      sedRun buf siz [r] fuel i [a] = some ⟨outU, [a - (chU : Int)], chU⟩ ∧
      sedRun buf siz [r] fuel i [(N : Int)] =
        some ⟨outN, [(N : Int) - ((min chU N : Nat) : Int)], min chU N⟩ ∧
      (chU ≤ N → outN = outU) := by
  intro fuel
  induction fuel with
  | zero =>
      intro i N a ha hf
      have hgi : siz ≤ i := by omega
      refine ⟨[], 0, [], ?_, ?_, fun _ => rfl⟩
      · rw [sedRun_ge hgi]; simp
      · rw [sedRun_ge hgi]; simp
  | succ fuel ih =>
      intro i N a ha hf
      by_cases hi : i < siz
      · by_cases hm : memcmpEq buf i r.frm = true
        · cases N with
          | zero =>
              have hNrun : sedRun buf siz [r] (fuel+1) i [(0:Int)] =
                  some ⟨copySeg buf i (siz - i), [0], 0⟩ := by
                apply sedRun_copy
                · intro i2 _ _
                  apply findRule_none_zero
                  intro x hx
                  simpa using hx
                · omega
              obtain ⟨outU, chU, hUrun⟩ :=
                sedRun_neg_total buf siz hfs (fuel + 1) i ha (by omega)
              refine ⟨outU, chU, copySeg buf i (siz - i), hUrun, ?_, ?_⟩
              · simpa using hNrun
              · intro hch
                have hch0 : chU = 0 := by omega
                subst hch0
                have hres := sedRun_zero_changes hUrun rfl
                exact (congrArg SedResult.out hres).symm
          | succ M =>
              have hane : (a != 0) = true := by
                simp only [bne_iff_ne, ne_eq]
                omega
              have hfrU : findRule buf i [r] [a] = some (r, a, 0) := by
                rw [findRule_single, hm, hane]
                simp
              have hNne : (((M + 1 : Nat) : Int) != 0) = true := by
                simp only [bne_iff_ne, ne_eq]
                omega
              have hfrN : findRule buf i [r] [((M + 1 : Nat) : Int)] =
                  some (r, ((M + 1 : Nat) : Int), 0) := by
                rw [findRule_single, hm, hNne]
                simp
              obtain ⟨outU, chU, outN, hU, hN, himp⟩ :=
                ih (i + r.frm.length) M (a := a - 1) (by omega) (by omega)
              refine ⟨r.toB ++ outU, chU + 1, r.toB ++ outN, ?_, ?_, ?_⟩
              · rw [sedRun_succ_match hi hfrU]
                show (sedRun buf siz [r] fuel (i + r.frm.length) [a - 1]).map _ = _
                rw [hU]
                simp only [Option.map_some']
                have hcast : a - 1 - (chU : Int) = a - ((chU + 1 : Nat) : Int) := by
                  push_cast
                  ring
                rw [hcast]
              · rw [sedRun_succ_match hi hfrN]
                have hlive : ([((M + 1 : Nat) : Int)].set 0 (((M + 1 : Nat) : Int) - 1))
                    = [((M : Nat) : Int)] := by
                  have : ((M + 1 : Nat) : Int) - 1 = ((M : Nat) : Int) := by
                    push_cast
                    ring
                  rw [List.set]
                  rw [this]
                rw [hlive, hN]
                simp only [Option.map_some']
                have hmin : min (chU + 1) (M + 1) = min chU M + 1 := by omega
                have hcast : ((M : Nat) : Int) - ((min chU M : Nat) : Int)
                    = ((M + 1 : Nat) : Int) - ((min (chU + 1) (M + 1) : Nat) : Int) := by
                  rw [hmin]
                  push_cast
                  ring
                rw [hcast, hmin]
              · intro h
                have h2 : chU ≤ M := by omega
                rw [himp h2]
        · have hmf : memcmpEq buf i r.frm = false := by
            simpa using hm
          have hfrU : findRule buf i [r] [a] = none := by
            rw [findRule_single, hmf]
            simp
          have hfrN : findRule buf i [r] [(N : Int)] = none := by
            rw [findRule_single, hmf]
            simp
          obtain ⟨outU, chU, outN, hU, hN, himp⟩ :=
            ih (i + 1) N (a := a) ha (by omega)
          refine ⟨buf i :: outU, chU, buf i :: outN, ?_, ?_, ?_⟩
          · rw [sedRun_succ_copy hi hfrU, hU]
            rfl
          · rw [sedRun_succ_copy hi hfrN, hN]
            rfl
          · intro h
            rw [himp h]
      · have hgi : siz ≤ i := by omega
        refine ⟨[], 0, [], ?_, ?_, fun _ => rfl⟩
        · rw [sedRun_ge hgi]; simp
        · rw [sedRun_ge hgi]; simp

theorem dup_length : ∀ n, (dup n).length = 2 * n := by
  intro n
  induction n with
  | zero => rfl
  | succ n ih =>
      show (dup n).length + 1 + 1 = 2 * (n + 1)
      omega

theorem sedRun_allA (siz : Nat) :
    ∀ (fuel i : Nat) {a : Int}, a < 0 → siz ≤ i + fuel →
    sedRun (fun _ => 97) siz [⟨[97],[98,98]⟩] fuel i [a] =
      some ⟨dup (siz - i), [a - ((siz - i : Nat) : Int)], siz - i⟩ := by
  intro fuel
  induction fuel with
  | zero =>
      intro i a _ hf
      have h0 : siz - i = 0 := by omega
      rw [sedRun_ge (by omega), h0]
      simp [dup]
  | succ fuel ih =>
      intro i a ha hf
      by_cases hi : i < siz
      · have hm : memcmpEq (fun _ => 97) i [97] = true := rfl
        have hane : (a != 0) = true := by
          simp only [bne_iff_ne, ne_eq]
          omega
        have hfr : findRule (fun _ => 97) i [(⟨[97],[98,98]⟩ : Rule)] [a] =
            some (⟨[97],[98,98]⟩, a, 0) := by
          rw [findRule_single, hm, hane]
          simp
        rw [sedRun_succ_match hi hfr]
        show (sedRun (fun _ => 97) siz [⟨[97],[98,98]⟩] fuel (i + 1) [a - 1]).map _ = _
        rw [ih (i + 1) (by omega) (by omega)]
        simp only [Option.map_some', Option.some.injEq]
        have h1 : siz - i = (siz - (i + 1)) + 1 := by omega
        rw [h1]
        refine congrArg₂ _ ?_ rfl
        show ([a - 1 - ((siz - (i+1) : Nat) : Int)] : List Int)
          = [a - (((siz - (i+1) : Nat) + 1 : Nat) : Int)]
        simp only [List.cons.injEq, and_true]
        push_cast
        ring
      · have h0 : siz - i = 0 := by omega
        rw [sedRun_ge (by omega), h0]
        simp [dup]

theorem sedRun_empty_frm {t : List Nat} {buf : Nat → Nat} {siz : Nat}
    (hs : 0 < siz) :
    ∀ (fuel : Nat) {a : Int}, a < 0 →
    sedRun buf siz [⟨[], t⟩] fuel 0 [a] = none := by
  intro fuel
  induction fuel with
  | zero =>
      intro a _
      simp [sedRun, hs]
  | succ fuel ih =>
      intro a ha
      have hane : (a != 0) = true := by
        simp only [bne_iff_ne, ne_eq]
        omega
      have hfr : findRule buf 0 [(⟨[], t⟩ : Rule)] [a] = some (⟨[], t⟩, a, 0) := by
        rw [findRule_single, hane]
        simp [memcmpEq]
      rw [sedRun_succ_match hs hfr]
      show (sedRun buf siz [⟨[], t⟩] fuel 0 [a - 1]).map _ = none
      rw [ih (by omega)]
      rfl

/-! ### Parser lemmas -/

theorem strchrIdx_none : ∀ {l : List Nat} {c : Nat},
    (∀ x ∈ l, x ≠ c) → strchrIdx l c = none := by
  intro l
  induction l with
  | nil => intro c _; rfl
  | cons x rest ih =>
      intro c h
      rw [strchrIdx, if_neg (h x (List.mem_cons_self x rest)),
        ih (fun z hz => h z (List.mem_cons_of_mem x hz))]
      rfl

set_option maxRecDepth 4000 in
theorem hexVal_eq : ∀ c : Nat,
    hexVal c = if isHexDigit c then some (hexDigitVal c) else none := by
  have hsmall : ∀ x < 256,
      hexVal x = if isHexDigit x then some (hexDigitVal x) else none := by
    decide
  intro c
  rcases Nat.lt_or_ge c 256 with h | h
  · exact hsmall c h
  · have h1 : isHexDigit c = false := by
      simp only [isHexDigit, decide_eq_false_iff_not]
      omega
    have h2 : toupperB c = c := by
      rw [toupperB, if_neg]
      omega
    rw [h1]
    show hexVal c = none
    rw [hexVal, h2]
    apply strchrIdx_none
    intro x hx hxc
    subst hxc
    simp only [hexTable, List.mem_cons, List.not_mem_nil, or_false] at hx
    omega

theorem shrink_eq_spec_bounded : ∀ (n : Nat) (s : List Nat), s.length ≤ n →
    shrink_to_binary s = specDecode s := by
  intro n
  induction n with
  | zero =>
      intro s hs
      have h0 : s = [] := List.length_eq_zero.mp (by omega)
      subst h0
      rfl
  | succ n ih =>
      intro s hs
      rcases s with _ | ⟨c, rest⟩
      · rfl
      · by_cases hc : c = 37
        · subst hc
          rcases rest with _ | ⟨d, rest2⟩
          · rfl
          · by_cases hd : d = 37
            · subst hd
              rw [shrink_to_binary.eq_def, specDecode.eq_def]
              simp [ih rest2 (by simp at hs; omega)]
            · rcases rest2 with _ | ⟨y, rest3⟩
              · rw [shrink_to_binary.eq_def, specDecode.eq_def]
                simp [hd]
              · rw [shrink_to_binary.eq_def, specDecode.eq_def]
                by_cases hxd : isHexDigit d = true
                · by_cases hxy : isHexDigit y = true
                  · simp [hd, hexVal_eq, hxd, hxy, ih rest3 (by simp at hs; omega)]
                  · simp [hd, hexVal_eq, hxd, hxy]
                · simp [hd, hexVal_eq, hxd]
        · rw [shrink_to_binary.eq_def, specDecode.eq_def]
          simp [hc, ih rest (by simp at hs; omega)]

/-! ### Tracker lemmas -/

theorem sweep_fst : ∀ l : List tracker_s,
    (sweep l).1 = l.filter (fun c => !(removable c)) := by
  intro l
  induction l with
  | nil => rfl
  | cons c rest ih =>
      by_cases hr : removable c = true
      · simp [sweep, hr, List.filter_cons, ih]
      · have hr2 : removable c = false := by simpa using hr
        simp [sweep, hr2, List.filter_cons, ih]

theorem sweep_snd : ∀ l : List tracker_s,
    (sweep l).2 = (l.filter removable).flatMap freetracker := by
  intro l
  induction l with
  | nil => rfl
  | cons c rest ih =>
      by_cases hr : removable c = true
      · simp [sweep, hr, List.filter_cons, ih]
      · have hr2 : removable c = false := by simpa using hr
        simp [sweep, hr2, List.filter_cons, ih]

theorem findUdp_mem : ∀ {l : List tracker_s} {addr : List Nat} {c : tracker_s},
    findUdp l addr = some c → c ∈ l ∧ c.csa = some addr := by
  intro l
  induction l with
  | nil => intro addr c h; simp [findUdp] at h
  | cons c0 rest ih =>
      intro addr c h
      by_cases h0 : c0.csa = some addr
      · rw [findUdp, if_pos h0] at h
        cases h
        exact ⟨List.mem_cons_self _ _, h0⟩
      · rw [findUdp, if_neg h0] at h
        obtain ⟨hm, hc⟩ := ih h
        exact ⟨List.mem_cons_of_mem _ hm, hc⟩

theorem findUdp_none : ∀ {l : List tracker_s} {addr : List Nat},
    findUdp l addr = none → ∀ c ∈ l, c.csa ≠ some addr := by
  intro l
  induction l with
  | nil => intro addr _ c hc; simp at hc
  | cons c0 rest ih =>
      intro addr h c hc
      by_cases h0 : c0.csa = some addr
      · rw [findUdp, if_pos h0] at h
        cases h
      · rw [findUdp, if_neg h0] at h
        rcases List.mem_cons.mp hc with hc2 | hc2
        · subst hc2; exact h0
        · exact ih h c hc2

theorem findUdp_first : ∀ {l : List tracker_s} {addr : List Nat} {c : tracker_s},
    noDupAddr l → c ∈ l → c.csa = some addr → findUdp l addr = some c := by
  intro l
  induction l with
  | nil => intro addr c _ hc; simp at hc
  | cons c0 rest ih =>
      intro addr c hnd hc hcsa
      rcases List.pairwise_cons.mp hnd with ⟨hp, hrest⟩
      rcases List.mem_cons.mp hc with hc2 | hc2
      · subst hc2
        rw [findUdp, if_pos hcsa]
      · have h0 : c0.csa ≠ some addr := by
          rcases hp c hc2 with hne | hnone
          · rw [hcsa] at hne; exact hne
          · rw [hnone]; simp
        rw [findUdp, if_neg h0]
        exact ih hrest hc2 hcsa

theorem udpStep_noDup : ∀ (conns : List tracker_s) (addr : List Nat)
    (lf ff : Nat) (tn : Int) (rl : List Int) (ok : Bool),
    noDupAddr conns → noDupAddr (udpStep conns addr lf ff tn rl ok).1 := by
  intro conns addr lf ff tn rl ok h
  rcases hfind : findUdp conns addr with _ | c
  · cases ok
    · simpa [udpStep, hfind] using h
    · simp only [udpStep, hfind]
      refine List.pairwise_cons.mpr ⟨?_, h⟩
      intro b hb
      left
      intro he
      exact findUdp_none hfind b hb he.symm
  · simpa [udpStep, hfind] using h

theorem udpStep_found : ∀ (conns : List tracker_s) (addr : List Nat)
    (lf ff : Nat) (tn : Int) (rl : List Int) (ok : Bool) (c : tracker_s),
    noDupAddr conns → c ∈ conns → c.csa = some addr →
    udpStep conns addr lf ff tn rl ok = (conns, some c) := by
  intro conns addr lf ff tn rl ok c h hc hcsa
  simp [udpStep, findUdp_first h hc hcsa]

theorem udpStep_new : ∀ (conns : List tracker_s) (addr : List Nat)
    (lf ff : Nat) (tn : Int) (rl : List Int),
    findUdp conns addr = none →
    udpStep conns addr lf ff tn rl true
      = (mkUdpConn addr lf ff tn rl :: conns, some (mkUdpConn addr lf ff tn rl)) := by
  intro conns addr lf ff tn rl h
  simp [udpStep, h]

theorem sweep_noDup : ∀ l : List tracker_s, noDupAddr l → noDupAddr (sweep l).1 := by
  intro l h
  rw [sweep_fst]
  exact List.Pairwise.sublist (List.filter_sublist _) h

/-! ### Claims -/

/-- C1 (corrected): on the first live matching rule j the engine appends
rule[j].toB, advances the cursor by the length of rule[j].frm, and
decrements live_counts[j] by one unconditionally (the C code runs live[j]--
even when live[j] is -1, so -1 becomes -2 rather than being preserved); a
live array whose entries are all negative keeps all entries negative after
any run, so unlimited rules never expire. -/
theorem claim_C1 :
    (∀ (buf : Nat → Nat) (siz : Nat) (rules : List Rule) (fuel i : Nat)
       (live : List Int) (r : Rule) (l : Int) (j : Nat),
       i < siz → findRule buf i rules live = some (r, l, j) →
       sedRun buf siz rules (fuel+1) i live =
         (sedRun buf siz rules fuel (i + r.frm.length) (live.set j (l - 1))).map
           (fun res => ⟨r.toB ++ res.out, res.live, res.changes + 1⟩)) ∧
    (∀ (buf : Nat → Nat) (siz : Nat) (rules : List Rule) (fuel i : Nat)
       (live : List Int) (res : SedResult),
       sedRun buf siz rules fuel i live = some res →
       (∀ x ∈ live, x < 0) → ∀ x ∈ res.live, x < 0) :=
  ⟨fun _ _ _ _ _ _ _ _ _ h hf => sedRun_succ_match h hf,
   fun _ _ _ _ _ _ _ h hn => sedRun_neg_live h hn⟩

/-- C1 witness: a concrete application of the rule s/a/b to the buffer a
with live count -1. -/
theorem claim_C1_witness :
    sedRun (bufOf [97]) 1 [⟨[97],[98]⟩] 1 0 [-1] = some ⟨[98], [-2], 1⟩ ∧
    (∀ x ∈ ([-2] : List Int), x < 0) := by
  constructor
  · rw [claim_C1.1 (bufOf [97]) 1 [⟨[97],[98]⟩] 0 0 [-1] ⟨[97],[98]⟩ (-1) 0
      (by decide) (by decide)]
    decide
  · exact claim_C1.2 (bufOf [97]) 1 [⟨[97],[98]⟩] 1 0 [-1] ⟨[98],[-2],1⟩
      (by decide) (by decide)

/-- C1 counterexample: the claim says a live count of -1 is preserved
unchanged by an application; the code leaves -2. -/
theorem claim_C1_cex :
    (sed_the_buffer (bufOf [97]) 1 [⟨[97],[98]⟩] [-1]).map SedResult.live
      = some [-2] ∧
    ¬ (sed_the_buffer (bufOf [97]) 1 [⟨[97],[98]⟩] [-1]).map SedResult.live
      = some [-1] := by
  decide

/-- C2 (code bug): two buffers that agree on all bytes below siz = 1 but
differ at the stale byte at index 1 produce different outputs under the
rule s/ab/c, because the memcmp of sed_the_buffer reads rule[j].fs bytes
starting at i without checking against siz. -/
theorem claim_C2 :
    (∀ i < 1, (fun n => if n = 0 then 97 else 98 : Nat → Nat) i
      = (fun n => if n = 0 then 97 else 0 : Nat → Nat) i) ∧
    sed_the_buffer (fun n => if n = 0 then 97 else 98) 1 [⟨[97,98],[99]⟩] [-1]
      = some ⟨[99], [-2], 1⟩ ∧
    sed_the_buffer (fun n => if n = 0 then 97 else 0) 1 [⟨[97,98],[99]⟩] [-1]
      = some ⟨[97], [-1], 0⟩ ∧
    ([99] : List Nat) ≠ [97] := by
  decide

/-- C3 (code bug): the rule parser accepts s//x, producing a rule whose
decoded source pattern is empty, and on any non-empty input the engine
loop with that rule never terminates (no fuel suffices), because the
cursor never advances. -/
theorem claim_C3 :
    parse_one_rule [115,47,47,120] = .ok (⟨[], [120]⟩, -1) ∧
    (⟨[], [120]⟩ : Rule).frm = [] ∧
    (∀ fuel : Nat, sedRun (bufOf [104]) 1 [⟨[], [120]⟩] fuel 0 [-1] = none) := by
  refine ⟨by decide, rfl, fun fuel => sedRun_empty_frm (by decide) fuel (by decide)⟩

/-- C4 (corrected): an absent or empty count field yields -1 (unlimited),
but an explicit count field is passed to atoi, so the count 0 yields 0 and
the rule starts expired: with an all-zero live array the engine copies the
buffer unchanged and performs no substitution. -/
theorem claim_C4 :
    rule_live_of none = -1 ∧
    rule_live_of (some []) = -1 ∧
    rule_live_of (some [48]) = 0 ∧
    (∀ (buf : Nat → Nat) (siz : Nat) (rules : List Rule) (live : List Int)
       (fuel i : Nat), (∀ l ∈ live, l = 0) → siz ≤ i + fuel →
       sedRun buf siz rules fuel i live = some ⟨copySeg buf i (siz - i), live, 0⟩) := by
  refine ⟨rfl, rfl, by decide, ?_⟩
  intro buf siz rules live fuel i hz hf
  exact sedRun_copy (fun i2 h2 h3 => findRule_none_zero hz) hf

/-- C4 witness: the rule s/h/x with parsed count 0 copies the buffer hi
unchanged. -/
theorem claim_C4_witness :
    sedRun (bufOf [104,105]) 2 [⟨[104],[120]⟩] 2 0 [0] = some ⟨[104,105], [0], 0⟩ := by
  have h := claim_C4.2.2.2 (bufOf [104,105]) 2 [⟨[104],[120]⟩] [0] 2 0
    (by decide) (by decide)
  exact h

/-- C4 counterexample: parsing s/a/b/0 yields count 0, not -1 as the claim
states for a non-positive count. -/
theorem claim_C4_cex :
    parse_one_rule [115,47,97,47,98,47,48] = .ok (⟨[97],[98]⟩, 0) ∧
    ((0 : Int) = -1 → False) := by
  decide

/-- C5 (corrected): a second application of the rule set can substitute
again when the first output contains a new match; what does hold is that a
pass never rescans its own substituted output, so when the first output
contains no match at all, a second application (with any fresh counts)
returns it unchanged. -/
theorem claim_C5 :
    ∀ (buf : Nat → Nat) (siz : Nat) (rules : List Rule) (live live2 : List Int)
      (res : SedResult),
      sed_the_buffer buf siz rules live = some res →
      noMatch (bufOf res.out) res.out.length rules = true →
      sed_the_buffer (bufOf res.out) res.out.length rules live2
        = some ⟨res.out, live2, 0⟩ := by
  intro buf siz rules live live2 res hrun hnm
  have h : sedRun (bufOf res.out) res.out.length rules res.out.length 0 live2
      = some ⟨copySeg (bufOf res.out) 0 (res.out.length - 0), live2, 0⟩ :=
    sedRun_copy (fun i2 h2 hlt => noMatch_findRule hnm i2 hlt live2) (by omega)
  rw [sed_the_buffer, h, Nat.sub_zero, copySeg_bufOf]

/-- C5 witness: s/a/b applied to the buffer a gives b, whose output has no
match, and a second application returns it unchanged. -/
theorem claim_C5_witness :
    sed_the_buffer (bufOf [98]) 1 [⟨[97],[98]⟩] [-1] = some ⟨[98], [-1], 0⟩ := by
  have h := claim_C5 (bufOf [97]) 1 [⟨[97],[98]⟩] [-1] [-1] ⟨[98],[-2],1⟩
    (by decide) (by decide)
  exact h

/-- C5 counterexample: with the single unlimited rule s/ab/a, the buffer
abb maps to ab in one application and to a after a second application, so
applying the rule set twice differs from applying it once. -/
theorem claim_C5_cex :
    (sed_the_buffer (bufOf [97,98,98]) 3 [⟨[97,98],[97]⟩] [-1]).map SedResult.out
      = some [97,98] ∧
    (sed_the_buffer (bufOf [97,98]) 2 [⟨[97,98],[97]⟩] [-1]).map SedResult.out
      = some [97] ∧
    ([97] : List Nat) ≠ [97,98] := by
  decide

/-- C6 (confirmed): for a single rule with positive count N, where k is the
number of greedy disjoint occurrences of the source pattern (the change
count of the unlimited run), the count-limited run performs exactly
min(k, N) replacements, its live count ends at N - min(k, N), and when all
k occurrences fit within the budget the two outputs coincide. -/
theorem claim_C6 :
    ∀ (buf : Nat → Nat) (siz : Nat) (r : Rule) (N : Nat),
      1 ≤ r.frm.length → 0 < N →
      ∃ (resU resN : SedResult),
        sed_the_buffer buf siz [r] [-1] = some resU ∧
        sed_the_buffer buf siz [r] [(N : Int)] = some resN ∧
        resN.changes = min resU.changes N ∧
        resN.live = [(N : Int) - ((min resU.changes N : Nat) : Int)] ∧
        (resU.changes ≤ N → resN.out = resU.out) := by
  intro buf siz r N hfs hN
  obtain ⟨outU, chU, outN, hU, hNr, himp⟩ :=
    sedRun_limit buf siz hfs siz 0 N (a := -1) (by decide) (by omega)
  exact ⟨⟨outU, [-1 - chU], chU⟩,
    ⟨outN, [(N : Int) - ((min chU N : Nat) : Int)], min chU N⟩,
    hU, hNr, rfl, rfl, himp⟩

/-- C6 witness: s/a/b with count 1 on the buffer aa replaces one of the two
occurrences. -/
theorem claim_C6_witness :
    (1 ≤ ([97] : List Nat).length ∧ 0 < 1) ∧
    ∃ (resU resN : SedResult),
      sed_the_buffer (bufOf [97,97]) 2 [⟨[97],[98]⟩] [-1] = some resU ∧
      sed_the_buffer (bufOf [97,97]) 2 [⟨[97],[98]⟩] [((1 : Nat) : Int)] = some resN ∧
      resN.changes = min resU.changes 1 ∧
      resN.live = [((1 : Nat) : Int) - ((min resU.changes 1 : Nat) : Int)] ∧
      (resU.changes ≤ 1 → resN.out = resU.out) := by
  refine ⟨⟨by decide, by decide⟩, ?_⟩
  exact claim_C6 (bufOf [97,97]) 2 ⟨[97],[98]⟩ 1 (by decide) (by decide)

/-- C7 (confirmed): the escape decoding loop of shrink_to_binary, applied
identically to source and destination patterns, agrees everywhere with the
decoder written from the specification: %XY with hex digits of either case
yields the byte 16X+Y, %% yields %, every other byte is copied verbatim, a
% followed by fewer than two remaining characters fails with unexpected
end, and a non-hex pair after % fails with non-hex sequence. -/
theorem claim_C7 : ∀ s : List Nat, shrink_to_binary s = specDecode s :=
  fun s => shrink_eq_spec_bounded s.length s le_rfl

/-- C8 (confirmed): the sweep keeps exactly the entries whose state is
before DISCONNECTED, releases the removed entries in traversal order, and
releasing an entry closes its forward socket and, for tcp (csa = none),
its client socket, while for udp (csa = some a) it frees the address copy
and does not close the client socket field (which holds the shared
listening socket). -/
theorem claim_C8 :
    (∀ l : List tracker_s, (sweep l).1 = l.filter (fun c => !(removable c))) ∧
    (∀ l : List tracker_s, (sweep l).2 = (l.filter removable).flatMap freetracker) ∧
    (∀ c : tracker_s, c.csa = none →
       freetracker c = [Action.closeFd c.csock, Action.closeFd c.fsock]) ∧
    (∀ (c : tracker_s) (a : List Nat), c.csa = some a →
       freetracker c = [Action.freeAddr a, Action.closeFd c.fsock] ∧
       (c.fsock ≠ c.csock → Action.closeFd c.csock ∉ freetracker c)) := by
  refine ⟨sweep_fst, sweep_snd, ?_, ?_⟩
  · intro c h
    simp [freetracker, h]
  · intro c a h
    constructor
    · simp [freetracker, h]
    · intro hne hmem
      simp [freetracker, h] at hmem
      exact hne hmem.symm

/-- C8 witness: a disconnected tcp entry is fully closed, a timed-out udp
entry frees its address and leaves its client socket (the listener) open. -/
theorem claim_C8_witness :
    sweep [⟨none, 5, 6, 0, state_e.DISCONNECTED, []⟩]
      = ([], [Action.closeFd 5, Action.closeFd 6]) ∧
    freetracker ⟨none, 5, 6, 0, state_e.DISCONNECTED, []⟩
      = [Action.closeFd 5, Action.closeFd 6] ∧
    freetracker ⟨some [1], 3, 7, 0, state_e.TIMEOUT, []⟩
      = [Action.freeAddr [1], Action.closeFd 7] ∧
    Action.closeFd 3 ∉ freetracker ⟨some [1], 3, 7, 0, state_e.TIMEOUT, []⟩ := by
  refine ⟨by decide, claim_C8.2.2.1 ⟨none, 5, 6, 0, state_e.DISCONNECTED, []⟩ rfl,
    (claim_C8.2.2.2 ⟨some [1], 3, 7, 0, state_e.TIMEOUT, []⟩ [1] rfl).1,
    (claim_C8.2.2.2 ⟨some [1], 3, 7, 0, state_e.TIMEOUT, []⟩ [1] rfl).2 (by decide)⟩

/-- C9 (confirmed): the udp datagram step preserves distinctness of client
addresses, delivers a datagram whose source address equals that of an
existing entry to that entry without inserting, inserts a new entry only
when the scan finds no match, and the sweep preserves the distinctness
invariant. -/
theorem claim_C9 :
    (∀ (conns : List tracker_s) (addr : List Nat) (lf ff : Nat) (tn : Int)
       (rl : List Int) (ok : Bool), noDupAddr conns →
       noDupAddr (udpStep conns addr lf ff tn rl ok).1) ∧
    (∀ (conns : List tracker_s) (addr : List Nat) (lf ff : Nat) (tn : Int)
       (rl : List Int) (ok : Bool) (c : tracker_s), noDupAddr conns →
       c ∈ conns → c.csa = some addr →
       udpStep conns addr lf ff tn rl ok = (conns, some c)) ∧
    (∀ (conns : List tracker_s) (addr : List Nat) (lf ff : Nat) (tn : Int)
       (rl : List Int), findUdp conns addr = none →
       udpStep conns addr lf ff tn rl true
         = (mkUdpConn addr lf ff tn rl :: conns, some (mkUdpConn addr lf ff tn rl))) ∧
    (∀ l : List tracker_s, noDupAddr l → noDupAddr (sweep l).1) :=
  ⟨udpStep_noDup, udpStep_found, udpStep_new, sweep_noDup⟩

/-- C9 witness: a datagram from a known address is delivered to its entry
without insertion, and inserting a datagram from a fresh address preserves
address distinctness. -/
theorem claim_C9_witness :
    udpStep [⟨some [1], 3, 7, 0, state_e.UNREPLIED, []⟩] [1] 3 9 0 [] true
      = ([⟨some [1], 3, 7, 0, state_e.UNREPLIED, []⟩],
         some ⟨some [1], 3, 7, 0, state_e.UNREPLIED, []⟩) ∧
    noDupAddr (udpStep [⟨some [1], 3, 7, 0, state_e.UNREPLIED, []⟩]
      [2] 3 9 0 [] true).1 := by
  constructor
  · exact claim_C9.2.1 [⟨some [1], 3, 7, 0, state_e.UNREPLIED, []⟩] [1] 3 9 0 [] true
      ⟨some [1], 3, 7, 0, state_e.UNREPLIED, []⟩ (by simp) (by simp) rfl
  · exact claim_C9.1 [⟨some [1], 3, 7, 0, state_e.UNREPLIED, []⟩] [2] 3 9 0 [] true
      (by simp)

/-- C10 (code bug): with the rule s/a/bb (replacement longer than the
source) and a buffer of MAX_BUF letters a, the engine returns an output of
size 2 * MAX_BUF, so the bytes written to the global buffer b2 reach
indices at and beyond MAX_BUF, contradicting the claim that every write
lands below MAX_BUF. -/
theorem claim_C10 :
    ∃ res : SedResult,
      sed_the_buffer (fun _ => 97) MAX_BUF [⟨[97],[98,98]⟩] [-1] = some res ∧
      res.out.length = 2 * MAX_BUF ∧
      MAX_BUF < res.out.length := by
  refine ⟨⟨dup MAX_BUF, [-1 - (MAX_BUF : Int)], MAX_BUF⟩, ?_, ?_, ?_⟩
  · have h := sedRun_allA MAX_BUF MAX_BUF 0 (a := -1) (by decide) (by omega)
    simpa using h
  · exact dup_length MAX_BUF
  · rw [dup_length]
    have h : MAX_BUF = 100000 := rfl
    omega

end Netsed
